import Mathlib

/-!
A verification development for the `Aggregator<T>` class of
`src/c/models/aggregator.h`: the data-summarization engine that maps an
input table to an exemplar table plus a per-row `exemplar_id` members
column.

Modelling conventions.
* The floating-point type `T` is modelled by exact rationals `ℚ`; the
  missing-value sentinel (`ISNA<T>` / `GETNA`) is modelled by `Option`.
* The members column (`int32` with an NA sentinel) is modelled by
  `List (Option ℤ)`, `none` standing for the NA sentinel.
* The external table group-by primitive (a collaborator of the engine,
  not part of the aggregator source) sorts rows by value with NAs first
  and returns groups of equal-valued rows in ascending value order; it
  is modelled by the rank function `groupRank` below.
-/

/-- A members-column value: `none` is the `int32` NA sentinel. -/
abbrev MVal := Option ℤ

/-- Sort order used by the external group-by on the members column:
NA sorts first, then integer values ascending. -/
def mvalLt : MVal → MVal → Bool
  | none, none => false
  | none, some _ => true
  | some _, none => false
  | some a, some b => a < b

/-- Modelled from the spec: the external table group-by primitive (§6)
sorts rows by value (NA first) and forms one group per distinct value;
the group index of a value is therefore the number of distinct values
present in the column that sort strictly below it. -/
def groupRank (ms : List MVal) (v : MVal) : ℕ :=
  ms.dedup.countP (fun w => mvalLt w v)

/-- Modelled from the spec: the number of groups the external group-by
returns is the number of distinct values in the members column. -/
def ngroupsOf (ms : List MVal) : ℕ := ms.dedup.length

/-- `1` when sampling happened, `0` otherwise (the `was_sampled` offset
used by `aggregate_exemplars`). -/
def sVal (s : Bool) : ℕ := if s then 1 else 0

/-- Number of exemplars produced by `aggregate_exemplars`:
`n_exemplars = gb_members.ngroups() - was_sampled`. -/
def nExemplars (ms : List MVal) (s : Bool) : ℕ := ngroupsOf ms - sVal s

/-- `aggregate_exemplars`: the count column entry for exemplar `k` is the
size of members group `k + was_sampled`
(`d_counts[i_sampled] = offsets[i+1] - offsets[i]`). -/
def membersCount (ms : List MVal) (s : Bool) (k : ℕ) : ℕ :=
  ms.countP (fun v => groupRank ms v = k + sVal s)

/-- `aggregate_exemplars`: rewrite of one members entry.  Groups with
index `≥ was_sampled` are renumbered to `group index - was_sampled`;
when sampling happened, group `0` is skipped and its rows keep their
previous value. -/
def finalMember (ms : List MVal) (s : Bool) (v : MVal) : MVal :=
  let g := groupRank ms v
  if s ∧ g = 0 then v else some ((g : ℤ) - (sVal s : ℤ))

/-- `aggregate_exemplars`: the rewritten members column. -/
def finalMembers (ms : List MVal) (s : Bool) : List MVal :=
  ms.map (finalMember ms s)

-- Basic order facts about `mvalLt`.

theorem mvalLt_irrefl (v : MVal) : mvalLt v v = false := by
  cases v <;> simp [mvalLt]

theorem mvalLt_trans {u v w : MVal} (h1 : mvalLt u v = true)
    (h2 : mvalLt v w = true) : mvalLt u w = true := by
  cases u <;> cases v <;> cases w <;> simp_all [mvalLt]
  omega

theorem mvalLt_total {u v : MVal} (h : u ≠ v) :
    mvalLt u v = true ∨ mvalLt v u = true := by
  cases u <;> cases v <;> simp_all [mvalLt]

theorem mvalLt_none_some (z : ℤ) : mvalLt none (some z) = true := rfl

-- Facts about `groupRank`.

theorem groupRank_lt_of_lt (ms : List MVal) {v w : MVal} (hv : v ∈ ms)
    (hlt : mvalLt v w = true) : groupRank ms v < groupRank ms w := by
  unfold groupRank
  rw [List.countP_eq_length_filter, List.countP_eq_length_filter]
  have hsub : List.Sublist (ms.dedup.filter (fun u => mvalLt u v))
      (ms.dedup.filter (fun u => mvalLt u w)) := by
    apply List.monotone_filter_right
    intro u hu
    simp only [decide_eq_true_eq] at *
    exact mvalLt_trans hu hlt
  have hvmem : v ∈ ms.dedup.filter (fun u => mvalLt u w) := by
    rw [List.mem_filter]
    exact ⟨List.mem_dedup.2 hv, hlt⟩
  have hvnot : v ∉ ms.dedup.filter (fun u => mvalLt u v) := by
    rw [List.mem_filter]
    simp [mvalLt_irrefl]
  rcases Nat.lt_or_ge (ms.dedup.filter (fun u => mvalLt u v)).length
      (ms.dedup.filter (fun u => mvalLt u w)).length with h | h
  · exact h
  · exfalso
    have := hsub.eq_of_length_le h
    rw [this] at hvnot
    exact hvnot hvmem

theorem groupRank_injOn (ms : List MVal) {v w : MVal} (hv : v ∈ ms)
    (hw : w ∈ ms) (h : groupRank ms v = groupRank ms w) : v = w := by
  by_contra hne
  rcases mvalLt_total hne with hlt | hlt
  · exact absurd h (Nat.ne_of_lt (groupRank_lt_of_lt ms hv hlt))
  · exact absurd h.symm (Nat.ne_of_lt (groupRank_lt_of_lt ms hw hlt))

theorem groupRank_lt_ngroups (ms : List MVal) (v : MVal) :
    groupRank ms v ≤ ngroupsOf ms := by
  unfold groupRank ngroupsOf
  exact List.countP_le_length _

theorem groupRank_pos_of_none_mem (ms : List MVal) (z : ℤ)
    (hna : none ∈ ms) : 0 < groupRank ms (some z) := by
  unfold groupRank
  rw [List.countP_pos_iff]
  exact ⟨none, List.mem_dedup.2 hna, by simp [mvalLt]⟩

/-- A row value with group index `0` must be the NA sentinel whenever the
members column contains the NA sentinel (NA sorts first). -/
theorem groupRank_zero_of_none_mem (ms : List MVal) {v : MVal}
    (hna : none ∈ ms) (h : groupRank ms v = 0) : v = none := by
  cases v with
  | none => rfl
  | some z => exact absurd h (Nat.ne_of_gt (groupRank_pos_of_none_mem ms z hna))

/-- Pointwise characterization of the renumbering: a row falls in count
bucket `k` exactly when its rewritten members entry is `some k`. -/
theorem finalMember_eq_some_iff (ms : List MVal) (s : Bool)
    (hna : s = true → none ∈ ms) (k : ℕ) {v : MVal} (hv : v ∈ ms) :
    finalMember ms s v = some (k : ℤ) ↔ groupRank ms v = k + sVal s := by
  unfold finalMember
  constructor
  · intro h
    by_cases hc : (s = true ∧ groupRank ms v = 0)
    · rw [if_pos] at h
      · exfalso
        have hvna : v = none := groupRank_zero_of_none_mem ms (hna hc.1) hc.2
        rw [hvna] at h
        exact Option.noConfusion h
      · simpa using hc
    · rw [if_neg (by simpa using hc)] at h
      have h2 : (groupRank ms v : ℤ) - (sVal s : ℤ) = (k : ℤ) :=
        Option.some_injective ℤ h
      rcases Bool.eq_false_or_eq_true s with hs | hs
      · subst hs
        simp only [sVal, if_pos rfl] at h2 ⊢
        have hzero : groupRank ms v ≠ 0 := by
          intro h0
          exact hc ⟨rfl, h0⟩
        omega
      · subst hs; simp only [sVal, if_neg Bool.false_ne_true] at *; omega
  · intro h
    have hc : ¬(s = true ∧ groupRank ms v = 0) := by
      rintro ⟨hs, h0⟩
      rw [hs] at h
      simp [sVal, h0] at h
    rw [if_neg (by simpa using hc), h]
    congr 1
    push_cast
    omega

/-- C1: on return from `aggregate`, for every exemplar index
`k < #exemplars`, the `members_count` entry of exemplar `k` equals the
number of members rows whose final `exemplar_id` is `k`; rows left at
the NA sentinel (sampling path only) are counted under no `k`.  The
hypothesis `hna` reflects that sampling always leaves at least one row
at the NA sentinel before `aggregate_exemplars` runs. -/
theorem C1_members_count (ms : List MVal) (s : Bool)
    (hna : s = true → none ∈ ms) (k : ℕ) (hk : k < nExemplars ms s) :
    membersCount ms s k =
      (finalMembers ms s).countP (fun v => v = some (k : ℤ)) := by
  unfold finalMembers membersCount
  rw [List.countP_map]
  apply List.countP_congr
  intro v hv
  simp only [Function.comp_apply, decide_eq_true_eq]
  exact (finalMember_eq_some_iff ms s hna k hv).symm

theorem C1_members_count_witness :
    ((true : Bool) = true → none ∈ ([none, some 0, some 0] : List MVal)) ∧
    0 < nExemplars [none, some 0, some 0] true ∧
    membersCount [none, some 0, some 0] true 0 =
      (finalMembers [none, some 0, some 0] true).countP
        (fun v => v = some (0 : ℤ)) :=
  ⟨fun _ => by decide, by decide,
    C1_members_count [none, some 0, some 0] true (fun _ => by decide) 0
      (by decide)⟩

/-- `static_cast<int32_t>` of a nonnegative-range floating value:
C truncation toward zero. -/
def cTrunc (q : ℚ) : ℤ := if 0 ≤ q then ⌊q⌋ else ⌈q⌉

/-- `Aggregator<T>::set_norm_coeffs`: affine coefficients
`(norm_factor, norm_shift)` mapping `[c_min, c_max]` into `[0, c_bins)`;
`eps` models `std::numeric_limits<T>::epsilon()`. -/
def setNormCoeffs (eps cmin cmax : ℚ) (cbins : ℕ) : ℚ × ℚ :=
  if eps < |cmax - cmin| then
    let f : ℚ := (cbins : ℚ) * (1 - eps) / (cmax - cmin)
    (f, -f * cmin)
  else ((0 : ℚ), (1 / 2 : ℚ) * (cbins : ℚ))

/-- `Aggregator<T>::group_1d_continuous`: each non-missing value is
binned to `static_cast<int32_t>(norm_factor * value + norm_shift)`;
missing values get the NA sentinel. -/
def group1dContinuous (eps cmin cmax : ℚ) (nbins : ℕ)
    (xs : List (Option ℚ)) : List MVal :=
  let nc := setNormCoeffs eps cmin cmax nbins
  xs.map (fun o =>
    match o with
    | none => none
    | some x => some (cTrunc (nc.1 * x + nc.2)))

/-- C6: for a constant column (`|max - min| ≤ ε`) and any bin count `B`,
`set_norm_coeffs` yields `norm_factor = 0` and `norm_shift = 0.5 B`, so
every non-missing value normalizes to exactly `0.5 B`. -/
theorem C6_constant_column (eps cmin cmax : ℚ) (cbins : ℕ)
    (h : |cmax - cmin| ≤ eps) :
    setNormCoeffs eps cmin cmax cbins = (0, (1 / 2 : ℚ) * (cbins : ℚ)) ∧
    ∀ x : ℚ, (setNormCoeffs eps cmin cmax cbins).1 * x +
        (setNormCoeffs eps cmin cmax cbins).2 = (1 / 2 : ℚ) * (cbins : ℚ) := by
  have hcond : ¬(eps < |cmax - cmin|) := not_lt.2 h
  constructor
  · rw [setNormCoeffs, if_neg hcond]
  · intro x
    rw [setNormCoeffs, if_neg hcond]
    ring

theorem C6_constant_column_witness :
    |(7 : ℚ) - 7| ≤ (1 / 1000000 : ℚ) ∧
    (setNormCoeffs (1 / 1000000) 7 7 10 = (0, (1 / 2 : ℚ) * (10 : ℚ)) ∧
      ∀ x : ℚ, (setNormCoeffs (1 / 1000000) 7 7 10).1 * x +
        (setNormCoeffs (1 / 1000000) 7 7 10).2 = (1 / 2 : ℚ) * (10 : ℚ)) :=
  ⟨by norm_num, C6_constant_column (1 / 1000000) 7 7 10 (by norm_num)⟩

theorem cTrunc_eq_floor {q : ℚ} (h : 0 ≤ q) : cTrunc q = ⌊q⌋ := if_pos h

/-- For a value within the column's `[min, max]` range, the normalized
value `norm_factor * x + norm_shift` is nonnegative (so the `int32` cast
truncation agrees with `⌊·⌋`). -/
theorem normalized_nonneg (eps cmin cmax : ℚ) (cbins : ℕ)
    (heps0 : 0 < eps) (heps1 : eps ≤ 1) {x : ℚ}
    (hx1 : cmin ≤ x) (hx2 : x ≤ cmax) :
    0 ≤ (setNormCoeffs eps cmin cmax cbins).1 * x +
        (setNormCoeffs eps cmin cmax cbins).2 := by
  by_cases hcond : eps < |cmax - cmin|
  · rw [setNormCoeffs, if_pos hcond]
    simp only
    have hle : cmin ≤ cmax := le_trans hx1 hx2
    have habs : |cmax - cmin| = cmax - cmin := abs_of_nonneg (by linarith)
    rw [habs] at hcond
    have hpos : 0 < cmax - cmin := lt_trans heps0 hcond
    have hf : 0 ≤ (cbins : ℚ) * (1 - eps) / (cmax - cmin) := by
      apply div_nonneg
      · have : (0 : ℚ) ≤ (cbins : ℚ) := Nat.cast_nonneg cbins
        nlinarith
      · linarith
    have : (cbins : ℚ) * (1 - eps) / (cmax - cmin) * x +
        -((cbins : ℚ) * (1 - eps) / (cmax - cmin)) * cmin =
        (cbins : ℚ) * (1 - eps) / (cmax - cmin) * (x - cmin) := by ring
    rw [this]
    exact mul_nonneg hf (by linarith)
  · rw [setNormCoeffs, if_neg hcond]
    simp only
    have : (0 : ℚ) ≤ (cbins : ℚ) := Nat.cast_nonneg cbins
    nlinarith

/-- C2: in the 1-D continuous path, two rows with non-missing values get
equal final `exemplar_id`s exactly when their bin ids
`⌊factor * x + shift⌋` coincide: the finalizer's renumbering preserves
and reflects bin equality.  (Sampling never triggers on this path, so
`was_sampled = false`.) -/
theorem C2_1d_continuous_renumber (eps cmin cmax : ℚ) (nbins : ℕ)
    (xs : List (Option ℚ)) (i j : ℕ) (xi xj : ℚ)
    (heps0 : 0 < eps) (heps1 : eps ≤ 1)
    (hxi : xs[i]? = some (some xi)) (hxj : xs[j]? = some (some xj))
    (hxi1 : cmin ≤ xi) (hxi2 : xi ≤ cmax)
    (hxj1 : cmin ≤ xj) (hxj2 : xj ≤ cmax) :
    (finalMembers (group1dContinuous eps cmin cmax nbins xs) false)[i]? =
      (finalMembers (group1dContinuous eps cmin cmax nbins xs) false)[j]? ↔
    ⌊(setNormCoeffs eps cmin cmax nbins).1 * xi +
        (setNormCoeffs eps cmin cmax nbins).2⌋ =
      ⌊(setNormCoeffs eps cmin cmax nbins).1 * xj +
        (setNormCoeffs eps cmin cmax nbins).2⌋ := by
  set nc := setNormCoeffs eps cmin cmax nbins with hnc
  set ms := group1dContinuous eps cmin cmax nbins xs with hms
  have hmsi : ms[i]? = some (some (cTrunc (nc.1 * xi + nc.2))) := by
    rw [hms, group1dContinuous, List.getElem?_map, hxi]
    rfl
  have hmsj : ms[j]? = some (some (cTrunc (nc.1 * xj + nc.2))) := by
    rw [hms, group1dContinuous, List.getElem?_map, hxj]
    rfl
  set vi : MVal := some (cTrunc (nc.1 * xi + nc.2)) with hvi
  set vj : MVal := some (cTrunc (nc.1 * xj + nc.2)) with hvj
  have hvim : vi ∈ ms := List.getElem?_mem hmsi
  have hvjm : vj ∈ ms := List.getElem?_mem hmsj
  have hfi : (finalMembers ms false)[i]? = some (finalMember ms false vi) := by
    rw [finalMembers, List.getElem?_map, hmsi]
    rfl
  have hfj : (finalMembers ms false)[j]? = some (finalMember ms false vj) := by
    rw [finalMembers, List.getElem?_map, hmsj]
    rfl
  rw [hfi, hfj]
  have hform : ∀ v : MVal, finalMember ms false v =
      some ((groupRank ms v : ℤ) - (sVal false : ℤ)) := by
    intro v
    rw [finalMember]
    simp
  rw [hform vi, hform vj]
  have htri : cTrunc (nc.1 * xi + nc.2) = ⌊nc.1 * xi + nc.2⌋ :=
    cTrunc_eq_floor (normalized_nonneg eps cmin cmax nbins heps0 heps1 hxi1 hxi2)
  have htrj : cTrunc (nc.1 * xj + nc.2) = ⌊nc.1 * xj + nc.2⌋ :=
    cTrunc_eq_floor (normalized_nonneg eps cmin cmax nbins heps0 heps1 hxj1 hxj2)
  constructor
  · intro h
    have h1 : groupRank ms vi = groupRank ms vj := by
      have h0 := Option.some_injective _ h
      have h1 : (groupRank ms vi : ℤ) = (groupRank ms vj : ℤ) := by
        simpa [sVal] using h0
      exact_mod_cast h1
    have h2 : vi = vj := groupRank_injOn ms hvim hvjm h1
    have h3 : cTrunc (nc.1 * xi + nc.2) = cTrunc (nc.1 * xj + nc.2) :=
      Option.some_injective _ (hvi ▸ hvj ▸ h2)
    rw [htri, htrj] at h3
    exact h3
  · intro h
    have h3 : cTrunc (nc.1 * xi + nc.2) = cTrunc (nc.1 * xj + nc.2) := by
      rw [htri, htrj]
      exact h
    have h2 : vi = vj := by rw [hvi, hvj, h3]
    rw [h2]

theorem C2_1d_continuous_renumber_witness :
    (0 : ℚ) < 1 / 2 ∧ (1 / 2 : ℚ) ≤ 1 ∧
    ([some (0 : ℚ), some 9][0]? = some (some (0 : ℚ))) ∧
    ([some (0 : ℚ), some 9][1]? = some (some (9 : ℚ))) ∧
    ((finalMembers (group1dContinuous (1 / 2) 0 10 5
        [some (0 : ℚ), some 9]) false)[0]? =
      (finalMembers (group1dContinuous (1 / 2) 0 10 5
        [some (0 : ℚ), some 9]) false)[1]? ↔
    ⌊(setNormCoeffs (1 / 2) 0 10 5).1 * 0 + (setNormCoeffs (1 / 2) 0 10 5).2⌋ =
      ⌊(setNormCoeffs (1 / 2) 0 10 5).1 * 9 +
        (setNormCoeffs (1 / 2) 0 10 5).2⌋) :=
  ⟨by norm_num, by norm_num, rfl, rfl,
    C2_1d_continuous_renumber (1 / 2) 0 10 5 [some 0, some 9] 0 1 0 9
      (by norm_num) (by norm_num) rfl rfl (by norm_num) (by norm_num)
      (by norm_num) (by norm_num)⟩

/-- `ISNA<T>` as the 0/1 integer the 2-D grouping sums into `na_case`. -/
def isnaB (v : Option ℚ) : ℤ := if v = none then 1 else 0

/-- `Aggregator<T>::group_2d_continuous`, entry for one row: with
`na_case = ISNA(value0) + 2 * ISNA(value1)`, a row with any missing
value gets `-na_case`, otherwise the combined bin id
`y_bin * nx_bins + x_bin`. -/
def group2dContinuousEntry (eps cmin0 cmax0 cmin1 cmax1 : ℚ)
    (nxbins nybins : ℕ) (v0 v1 : Option ℚ) : MVal :=
  let ncx := setNormCoeffs eps cmin0 cmax0 nxbins
  let ncy := setNormCoeffs eps cmin1 cmax1 nybins
  let naCase := isnaB v0 + 2 * isnaB v1
  if naCase ≠ 0 then some (-naCase)
  else some (cTrunc (ncy.1 * (v1.getD 0) + ncy.2) * (nxbins : ℤ) +
             cTrunc (ncx.1 * (v0.getD 0) + ncx.2))

/-- C3 (code bug): evaluating `group_2d_continuous` on the three
missing-value patterns.  The row `(value, NA)` is mapped to `-2` and
`(NA, value)` to `-1` — the opposite of the claim and of the function's
own documentation comment (`aggregator.h` lines 391-394), which assign
`-1` to `(value, NA)` and `-2` to `(NA, value)`; `(NA, NA)` agrees at
`-3`. -/
theorem C3_group2d_na_sentinels_eval :
    group2dContinuousEntry (1 / 1000) 0 1 0 1 2 2 (some 1) none = some (-2) ∧
    group2dContinuousEntry (1 / 1000) 0 1 0 1 2 2 none (some 1) = some (-1) ∧
    group2dContinuousEntry (1 / 1000) 0 1 0 1 2 2 none none = some (-3) := by
  refine ⟨?_, ?_, ?_⟩ <;> rfl

/-- `Aggregator<T>::group_0d`: the external sort by the first column
(missing last) yields a row index, modelled as a permutation `σ` from
sorted positions to original rows; `d_members[σ i] = i`, so row `j`
receives its sorted rank `σ.symm j`. -/
def group0d (n : ℕ) (σ : Equiv.Perm (Fin n)) : List MVal :=
  (List.finRange n).map (fun j => some ((σ.symm j : ℕ) : ℤ))

/-- The canonical members column `[some 0, ..., some (n-1)]`. -/
def canonMembers (n : ℕ) : List MVal :=
  (List.range n).map (fun k : ℕ => (some (k : ℤ) : MVal))

theorem countP_range_lt (n v : ℕ) :
    (List.range n).countP (fun u => decide (u < v)) = min v n := by
  induction n with
  | zero => simp
  | succ m ih =>
    rw [List.range_succ, List.countP_append, ih]
    have hone : List.countP (fun u => decide (u < v)) [m] =
        if m < v then 1 else 0 := by
      by_cases h : m < v <;> simp [List.countP_cons, h]
    rw [hone]
    by_cases h : m < v
    · rw [if_pos h]
      omega
    · rw [if_neg h]
      omega

theorem canonMembers_nodup (n : ℕ) : (canonMembers n).Nodup := by
  unfold canonMembers
  apply List.Nodup.map
  · intro a b hab
    have : (a : ℤ) = (b : ℤ) := Option.some_injective _ hab
    exact_mod_cast this
  · exact List.nodup_range n

theorem group0d_perm_canon (n : ℕ) (σ : Equiv.Perm (Fin n)) :
    List.Perm (group0d n σ) (canonMembers n) := by
  unfold group0d canonMembers
  have h1 : (List.finRange n).map
        (fun j : Fin n => (some ((σ.symm j : ℕ) : ℤ) : MVal)) =
      ((List.finRange n).map σ.symm).map
        (fun u : Fin n => (some ((u : ℕ) : ℤ) : MVal)) := by
    rw [List.map_map]
    rfl
  rw [h1]
  have h2 : List.Perm ((List.finRange n).map σ.symm) (List.finRange n) :=
    Equiv.Perm.map_finRange_perm (Equiv.symm σ)
  have h3 := h2.map (fun u : Fin n => (some ((u : ℕ) : ℤ) : MVal))
  apply h3.trans
  have h4 : (List.finRange n).map (fun u : Fin n => (some ((u : ℕ) : ℤ) : MVal)) =
      ((List.finRange n).map Fin.val).map
        (fun k : ℕ => (some ((k : ℕ) : ℤ) : MVal)) := by
    rw [List.map_map]
    rfl
  rw [h4, List.map_coe_finRange]

/-- On a members column that is a permutation of `[some 0, ..., some (n-1)]`,
the group index of `some v` is `v` itself. -/
theorem groupRank_of_perm_canon {n : ℕ} {ms : List MVal}
    (hperm : List.Perm ms (canonMembers n)) (v : ℕ) (hv : v < n) :
    groupRank ms (some (v : ℤ)) = v := by
  unfold groupRank
  have hnd : ms.Nodup := (hperm.nodup_iff).2 (canonMembers_nodup n)
  rw [List.Nodup.dedup hnd, hperm.countP_eq]
  unfold canonMembers
  rw [List.countP_map]
  have hcongr : ∀ u ∈ List.range n,
      (fun w => mvalLt w (some (v : ℤ)))
        ((fun k : ℕ => (some ((k : ℕ) : ℤ) : MVal)) u) =
      decide (u < v) := by
    intro u hu
    simp only [Function.comp_apply, mvalLt]
    rw [decide_eq_decide]
    exact_mod_cast Iff.rfl
  calc (List.range n).countP
        ((fun w => mvalLt w (some (v : ℤ))) ∘
          (fun k : ℕ => (some ((k : ℕ) : ℤ) : MVal)))
      = (List.range n).countP (fun u => decide (u < v)) :=
        List.countP_congr (fun u hu => by
          simp only [Function.comp_apply] at *
          rw [hcongr u hu])
    _ = min v n := countP_range_lt n v
    _ = v := min_eq_left (le_of_lt hv)

theorem ngroups_of_perm_canon {n : ℕ} {ms : List MVal}
    (hperm : List.Perm ms (canonMembers n)) : ngroupsOf ms = n := by
  unfold ngroupsOf
  have hnd : ms.Nodup := (hperm.nodup_iff).2 (canonMembers_nodup n)
  rw [List.Nodup.dedup hnd, hperm.length_eq]
  unfold canonMembers
  rw [List.length_map, List.length_range]

/-- The 0-D renumbering is the identity: every row already carries a
distinct value in `[0, n)`, so `aggregate_exemplars` rewrites each entry
to itself. -/
theorem finalMembers_group0d (n : ℕ) (σ : Equiv.Perm (Fin n)) :
    finalMembers (group0d n σ) false = group0d n σ := by
  unfold finalMembers
  have h : ∀ v ∈ group0d n σ, finalMember (group0d n σ) false v = id v := by
    intro v hv
    rcases List.mem_map.1 hv with ⟨j, hj, rfl⟩
    have hlt : ((σ.symm j : ℕ)) < n := (σ.symm j).isLt
    have hr : groupRank (group0d n σ) (some ((σ.symm j : ℕ) : ℤ)) =
        (σ.symm j : ℕ) :=
      groupRank_of_perm_canon (group0d_perm_canon n σ) (σ.symm j : ℕ) hlt
    rw [finalMember]
    simp only [Bool.false_eq_true, false_and, if_false, hr, id]
    congr 1
  exact (List.map_congr_left h).trans (List.map_id _)

theorem group0d_length (n : ℕ) (σ : Equiv.Perm (Fin n)) :
    (group0d n σ).length = n := by
  simp [group0d]

theorem group0d_getElem? (n : ℕ) (σ : Equiv.Perm (Fin n)) (i : Fin n) :
    (group0d n σ)[(i : ℕ)]? = some (some ((σ.symm i : ℕ) : ℤ)) := by
  rw [group0d, List.getElem?_map]
  have h1 : (i : ℕ) < (List.finRange n).length := by simp [i.isLt]
  rw [List.getElem?_eq_getElem h1]
  simp [List.getElem_finRange]

/-- `group_nd` exemplar traversal:
`j = (k * coprimes[coprime_index] + exemplar_index) % nexemplars`. -/
def ndTraversal (nex c e0 k : ℕ) : ℕ := (k * c + e0) % nex

/-- C7: for `n ≥ 1`, a stride `c` coprime to `n` and a starting offset
`e0 < n`, the traversal `k ↦ (k * c + e0) % n` over `k = 0, ..., n-1`
visits every element of `[0, n)` exactly once, so `group_nd` probes the
exemplar list along a complete permutation of its indices. -/
theorem C7_traversal_bijective (n c e0 : ℕ) (hn : 0 < n)
    (hc : Nat.gcd c n = 1) (he : e0 < n) :
    Function.Bijective
      (fun k : Fin n => (⟨ndTraversal n c e0 (k : ℕ),
        Nat.mod_lt _ hn⟩ : Fin n)) := by
  rw [Fintype.bijective_iff_injective_and_card]
  refine ⟨?_, rfl⟩
  intro k1 k2 h12
  have hmod : (↑k1 * c + e0) % n = (↑k2 * c + e0) % n := by
    simpa [ndTraversal] using congrArg Fin.val h12
  have hme : Nat.ModEq n (↑k1 * c + e0) (↑k2 * c + e0) := hmod
  have hme2 : Nat.ModEq n (↑k1 * c) (↑k2 * c) := hme.add_right_cancel' e0
  have hme3 : Nat.ModEq n (↑k1) (↑k2) :=
    hme2.cancel_right_of_coprime (Nat.Coprime.symm hc)
  have : (↑k1 : ℕ) % n = (↑k2 : ℕ) % n := hme3
  rw [Nat.mod_eq_of_lt k1.isLt, Nat.mod_eq_of_lt k2.isLt] at this
  exact Fin.ext this

theorem C7_traversal_bijective_witness :
    0 < 5 ∧ Nat.gcd 2 5 = 1 ∧ 3 < 5 ∧
    Function.Bijective
      (fun k : Fin 5 => (⟨ndTraversal 5 2 3 (k : ℕ),
        Nat.mod_lt _ (by decide)⟩ : Fin 5)) :=
  ⟨by decide, by decide, by decide,
    C7_traversal_bijective 5 2 3 (by decide) (by decide) (by decide)⟩

/-- Is a coordinate pair non-missing on both sides (the pair survives the
`ISNA` skip in `calculate_distance`)? -/
def bothPresent : Option ℚ × Option ℚ → Bool
  | (some _, some _) => true
  | _ => false

/-- The loop of `Aggregator<T>::calculate_distance` over coordinate
pairs, carrying the running `sum` and the participating-dimension count
`n`.  On early exit (`early_exit && sum > delta`) the raw running sum is
returned; at loop end the result is `sum * ndims / n`. -/
def distAux (delta : ℚ) (earlyExit : Bool) (ndims : ℕ) :
    List (Option ℚ × Option ℚ) → ℚ → ℕ → ℚ
  | [], sum, n => sum * (ndims : ℚ) / (n : ℚ)
  | (some x, some y) :: rest, sum, n =>
      if earlyExit ∧ delta < sum + (x - y) * (x - y)
      then sum + (x - y) * (x - y)
      else distAux delta earlyExit ndims rest (sum + (x - y) * (x - y)) (n + 1)
  | (some _, none) :: rest, sum, n => distAux delta earlyExit ndims rest sum n
  | (none, _) :: rest, sum, n => distAux delta earlyExit ndims rest sum n

/-- `Aggregator<T>::calculate_distance` on two coordinate vectors of
(at least) `ndims` dimensions. -/
def calculate_distance (e1 e2 : List (Option ℚ)) (ndims : ℕ) (delta : ℚ)
    (earlyExit : Bool) : ℚ :=
  distAux delta earlyExit ndims ((e1.zip e2).take ndims) 0 0

/-- Number of dimensions where both vectors are non-missing (the final
value of the loop counter `n` absent early exit). -/
def nPresent (e1 e2 : List (Option ℚ)) (ndims : ℕ) : ℕ :=
  ((e1.zip e2).take ndims).countP bothPresent

/-- Swapping the two vectors swaps each coordinate pair but leaves every
step of the distance loop unchanged. -/
theorem distAux_swap (delta : ℚ) (ee : Bool) (ndims : ℕ)
    (pairs : List (Option ℚ × Option ℚ)) (sum : ℚ) (n : ℕ) :
    distAux delta ee ndims (pairs.map Prod.swap) sum n =
      distAux delta ee ndims pairs sum n := by
  induction pairs generalizing sum n with
  | nil => rfl
  | cons p rest ih =>
    rcases p with ⟨a, b⟩
    cases a with
    | none =>
      cases b with
      | none => simpa only [List.map_cons, Prod.swap, distAux] using ih sum n
      | some y => simpa only [List.map_cons, Prod.swap, distAux] using ih sum n
    | some x =>
      cases b with
      | none => simpa only [List.map_cons, Prod.swap, distAux] using ih sum n
      | some y =>
        simp only [List.map_cons, Prod.swap, distAux]
        have hsq : (y - x) * (y - x) = (x - y) * (x - y) := by ring
        rw [hsq]
        by_cases hif : ee = true ∧ delta < sum + (x - y) * (x - y)
        · rw [if_pos hif, if_pos hif]
        · rw [if_neg hif, if_neg hif]
          exact ih _ _

/-- Over pairs with equal components the running sum stays `0`, so the
loop returns `0` (with or without early exit). -/
theorem distAux_diag (delta : ℚ) (ee : Bool) (ndims : ℕ)
    (pairs : List (Option ℚ × Option ℚ)) (hdiag : ∀ p ∈ pairs, p.1 = p.2)
    (n : ℕ) : distAux delta ee ndims pairs 0 n = 0 := by
  induction pairs generalizing n with
  | nil => simp [distAux]
  | cons p rest ih =>
    rcases p with ⟨a, b⟩
    have hab : a = b := hdiag (a, b) (List.mem_cons_self _ _)
    subst hab
    have hrest : ∀ q ∈ rest, q.1 = q.2 :=
      fun q hq => hdiag q (List.mem_cons_of_mem _ hq)
    cases a with
    | none =>
      simp only [distAux]
      exact ih hrest n
    | some x =>
      simp only [distAux]
      have hzero : (0 : ℚ) + (x - x) * (x - x) = 0 := by ring
      rw [hzero]
      by_cases hif : ee = true ∧ delta < (0 : ℚ)
      · rw [if_pos hif]
      · rw [if_neg hif]
        exact ih hrest (n + 1)

theorem zip_self_diag (l : List (Option ℚ)) : ∀ p ∈ l.zip l, p.1 = p.2 := by
  induction l with
  | nil => intro p hp; cases hp
  | cons a rest ih =>
    intro p hp
    rw [List.zip_cons_cons] at hp
    rcases List.mem_cons.1 hp with rfl | hp
    · rfl
    · exact ih p hp

/-- C8: the distance kernel is symmetric in its two arguments and maps
equal vectors to distance `0`, for every threshold `delta`, with or
without early exit. -/
theorem C8_distance_symm_diag (e1 e2 : List (Option ℚ)) (ndims : ℕ)
    (delta : ℚ) (ee : Bool) (hlen : e1.length = e2.length)
    (hnm : 1 ≤ nPresent e1 e2 ndims) :
    calculate_distance e1 e2 ndims delta ee =
      calculate_distance e2 e1 ndims delta ee ∧
    calculate_distance e1 e1 ndims delta ee = 0 := by
  constructor
  · unfold calculate_distance
    have hz : e2.zip e1 = (e1.zip e2).map Prod.swap := (List.zip_swap e1 e2).symm
    rw [hz, ← List.map_take, distAux_swap]
  · unfold calculate_distance
    exact distAux_diag delta ee ndims _
      (fun p hp => zip_self_diag e1 p (List.mem_of_mem_take hp)) 0

theorem C8_distance_symm_diag_witness :
    ([some (1 : ℚ), none] : List (Option ℚ)).length =
      ([some (3 : ℚ), some 4] : List (Option ℚ)).length ∧
    1 ≤ nPresent [some (1 : ℚ), none] [some (3 : ℚ), some 4] 2 ∧
    (calculate_distance [some (1 : ℚ), none] [some (3 : ℚ), some 4] 2 5 true =
        calculate_distance [some (3 : ℚ), some 4] [some (1 : ℚ), none] 2 5 true ∧
      calculate_distance [some (1 : ℚ), none] [some (1 : ℚ), none] 2 5 true = 0) :=
  ⟨rfl, by decide,
    C8_distance_symm_diag [some 1, none] [some 3, some 4] 2 5 true rfl (by decide)⟩

/-- Without early exit, the result of the loop dominates the running
sum: with all participating dimensions counted in, `n ≤ ndims`, so the
final `* ndims / n` normalization only scales the sum up. -/
theorem distAux_false_ge (delta : ℚ) (ndims : ℕ)
    (pairs : List (Option ℚ × Option ℚ)) (sum : ℚ) (n : ℕ)
    (hs : 0 ≤ sum) (hcount : n + pairs.countP bothPresent ≤ ndims)
    (hpos : 1 ≤ n + pairs.countP bothPresent) :
    sum ≤ distAux delta false ndims pairs sum n := by
  induction pairs generalizing sum n with
  | nil =>
    simp only [List.countP_nil, Nat.add_zero] at hcount hpos
    simp only [distAux]
    have hnpos : (0 : ℚ) < (n : ℚ) := by exact_mod_cast hpos
    have hn : (1 : ℚ) ≤ (ndims : ℚ) / (n : ℚ) := by
      rw [le_div_iff hnpos, one_mul]
      exact_mod_cast hcount
    calc sum = sum * 1 := by ring
      _ ≤ sum * ((ndims : ℚ) / (n : ℚ)) := mul_le_mul_of_nonneg_left hn hs
      _ = sum * (ndims : ℚ) / (n : ℚ) := by ring
  | cons p rest ih =>
    rcases p with ⟨a, b⟩
    cases a with
    | none =>
      cases b with
      | none =>
        simp only [distAux]
        rw [List.countP_cons] at hcount hpos
        exact ih sum n hs (by simpa [bothPresent] using hcount)
          (by simpa [bothPresent] using hpos)
      | some y =>
        simp only [distAux]
        rw [List.countP_cons] at hcount hpos
        exact ih sum n hs (by simpa [bothPresent] using hcount)
          (by simpa [bothPresent] using hpos)
    | some x =>
      cases b with
      | none =>
        simp only [distAux]
        rw [List.countP_cons] at hcount hpos
        exact ih sum n hs (by simpa [bothPresent] using hcount)
          (by simpa [bothPresent] using hpos)
      | some y =>
        simp only [distAux]
        rw [if_neg (by simp)]
        rw [List.countP_cons] at hcount
        have hsq : (0 : ℚ) ≤ (x - y) * (x - y) := mul_self_nonneg _
        have hstep : sum ≤ sum + (x - y) * (x - y) := by linarith
        refine le_trans hstep (ih (sum + (x - y) * (x - y)) (n + 1)
          (by linarith) ?_ (by omega))
        have : rest.countP bothPresent + 1 =
            rest.countP bothPresent + (if bothPresent (some x, some y) then 1 else 0) := by
          simp [bothPresent]
        omega

/-- The early-exit and no-early-exit runs agree on the comparison with
`delta`: either no step trips the threshold and the two runs return the
same value, or some step does, and then both results exceed `delta`. -/
theorem distAux_early_iff (delta : ℚ) (ndims : ℕ)
    (pairs : List (Option ℚ × Option ℚ)) (sum : ℚ) (n : ℕ)
    (hd : 0 ≤ delta) (hs : 0 ≤ sum)
    (hcount : n + pairs.countP bothPresent ≤ ndims)
    (hpos : 1 ≤ n + pairs.countP bothPresent) :
    (distAux delta true ndims pairs sum n < delta ↔
      distAux delta false ndims pairs sum n < delta) := by
  induction pairs generalizing sum n with
  | nil => exact Iff.rfl
  | cons p rest ih =>
    rcases p with ⟨a, b⟩
    cases a with
    | none =>
      cases b with
      | none =>
        simp only [distAux]
        rw [List.countP_cons] at hcount hpos
        exact ih sum n hs (by simpa [bothPresent] using hcount)
          (by simpa [bothPresent] using hpos)
      | some y =>
        simp only [distAux]
        rw [List.countP_cons] at hcount hpos
        exact ih sum n hs (by simpa [bothPresent] using hcount)
          (by simpa [bothPresent] using hpos)
    | some x =>
      cases b with
      | none =>
        simp only [distAux]
        rw [List.countP_cons] at hcount hpos
        exact ih sum n hs (by simpa [bothPresent] using hcount)
          (by simpa [bothPresent] using hpos)
      | some y =>
        simp only [distAux]
        rw [List.countP_cons] at hcount
        have hcount2 : (n + 1) + rest.countP bothPresent ≤ ndims := by
          have : rest.countP bothPresent + 1 =
              rest.countP bothPresent +
                (if bothPresent (some x, some y) then 1 else 0) := by
            simp [bothPresent]
          omega
        have hs2 : 0 ≤ sum + (x - y) * (x - y) :=
          add_nonneg hs (mul_self_nonneg _)
        by_cases htrig : delta < sum + (x - y) * (x - y)
        · rw [if_pos ⟨trivial, htrig⟩, if_neg (by simp)]
          constructor
          · intro hlt
            exact absurd hlt (not_lt.2 (le_of_lt htrig))
          · intro hlt
            exfalso
            have hge := distAux_false_ge delta ndims rest
              (sum + (x - y) * (x - y)) (n + 1) hs2 hcount2 (by omega)
            linarith
        · rw [if_neg (fun hand => htrig hand.2), if_neg (by simp)]
          exact ih (sum + (x - y) * (x - y)) (n + 1) hs2 hcount2 (by omega)

/-- C10: for any two coordinate vectors with at least one mutually
non-missing component among the scanned dimensions and any threshold
`delta ≥ 0`, the early-exit distance is below `delta` exactly when the
full distance is: the early-exit optimization never changes the
membership decision `distance < delta` made by `group_nd`. -/
theorem C10_early_exit_refinement (e1 e2 : List (Option ℚ)) (ndims : ℕ)
    (delta : ℚ) (hd : 0 ≤ delta) (hnm : 1 ≤ nPresent e1 e2 ndims) :
    (calculate_distance e1 e2 ndims delta true < delta ↔
      calculate_distance e1 e2 ndims delta false < delta) := by
  unfold calculate_distance
  apply distAux_early_iff delta ndims _ 0 0 hd le_rfl
  · have h1 : ((e1.zip e2).take ndims).countP bothPresent ≤
        ((e1.zip e2).take ndims).length := List.countP_le_length _
    have h2 : ((e1.zip e2).take ndims).length ≤ ndims := by
      rw [List.length_take]
      exact min_le_left _ _
    omega
  · simpa [nPresent] using hnm

theorem C10_early_exit_refinement_witness :
    (0 : ℚ) ≤ 5 ∧ 1 ≤ nPresent [some (0 : ℚ), none] [some (3 : ℚ), some 4] 2 ∧
    (calculate_distance [some (0 : ℚ), none] [some (3 : ℚ), some 4] 2 5 true < 5 ↔
      calculate_distance [some (0 : ℚ), none] [some (3 : ℚ), some 4] 2 5 false < 5) :=
  ⟨by norm_num, by decide,
    C10_early_exit_refinement [some 0, none] [some 3, some 4] 2 5
      (by norm_num) (by decide)⟩

/-- `ri_members[offsets[p]]`: the representative (first, in sorted
order) row of group `p` — under the stable external sort, the first row
whose value has group index `p`. -/
def firstRow (ms : List MVal) (p : ℕ) : ℕ :=
  ms.findIdx (fun v => groupRank ms v = p)

/-- A group index that actually occurs in the members column. -/
def achievedRank (ms : List MVal) (p : ℕ) : Prop :=
  ∃ i, i < ms.length ∧ groupRank ms (ms.getD i none) = p

/-- `sample_exemplars` inner write: stamp every row of group `p` with
the next sequential exemplar id `k`. -/
def writeGroup (ms : List MVal) (p k : ℕ) (cur : ℕ → MVal) : ℕ → MVal :=
  fun i => if i < ms.length ∧ groupRank ms (ms.getD i none) = p
           then some (k : ℤ) else cur i

/-- One iteration of the `sample_exemplars` loop: pick group `p`; if its
representative row is still NA the group is new, so stamp it and
increment the selection counter, otherwise do nothing. -/
def sampleStep (ms : List MVal) (st : (ℕ → MVal) × ℕ) (p : ℕ) :
    (ℕ → MVal) × ℕ :=
  if st.1 (firstRow ms p) = none
  then (writeGroup ms p st.2 st.1, st.2 + 1)
  else st

/-- The `while (k < max_bins)` selection loop, driven by the stream of
random group picks `rand() % ngroups`. -/
def sampleRun (ms : List MVal) (maxBins : ℕ) :
    List ℕ → (ℕ → MVal) × ℕ → (ℕ → MVal) × ℕ
  | [], st => st
  | p :: ps, st =>
      if st.2 < maxBins then sampleRun ms maxBins ps (sampleStep ms st p)
      else st

/-- `n_na_bins` as set by the dispatch switch in `aggregate`: `0` for the
0-D and N-D paths, `1` for 1-D, `3` for 2-D. -/
def nNaBinsFor (ncols : ℕ) : ℕ :=
  match ncols with
  | 0 => 0
  | 1 => 1
  | 2 => 3
  | _ + 3 => 0

/-- `Aggregator<T>::sample_exemplars`: when
`ngroups > max_bins + n_na_bins`, clear the members column to NA and run
the selection loop; otherwise leave the members column untouched.
Returns the members column (as a function of the row index), the number
of selected groups, and the `was_sampled` flag. -/
def sampleExemplars (ms : List MVal) (maxBins nNaBins : ℕ)
    (picks : List ℕ) : ((ℕ → MVal) × ℕ) × Bool :=
  if maxBins + nNaBins < ngroupsOf ms then
    (sampleRun ms maxBins picks ((fun _ => none), 0), true)
  else ((fun i => ms.getD i none, 0), false)

theorem firstRow_spec (ms : List MVal) (p : ℕ) (hp : achievedRank ms p) :
    firstRow ms p < ms.length ∧
      groupRank ms (ms.getD (firstRow ms p) none) = p := by
  obtain ⟨i, hi, hr⟩ := hp
  have hex : ∃ v ∈ ms, (fun v => decide (groupRank ms v = p)) v = true := by
    refine ⟨ms.getD i none, ?_, by simpa using hr⟩
    rw [List.getD_eq_getElem ms none hi]
    exact List.getElem_mem _
  have hlt : ms.findIdx (fun v => decide (groupRank ms v = p)) < ms.length :=
    List.findIdx_lt_length_of_exists hex
  refine ⟨hlt, ?_⟩
  have hsat := List.findIdx_get (p := fun v => decide (groupRank ms v = p))
    (w := hlt)
  rw [firstRow, List.getD_eq_getElem ms none hlt]
  simpa using hsat

/-- Invariant of the selection loop: some injective choice `sel` of
already-achieved group indices explains the state — a row holds `some t`
exactly when `t` is the selection order of its group. -/
def SampleInv (ms : List MVal) (st : (ℕ → MVal) × ℕ) : Prop :=
  ∃ sel : ℕ → ℕ,
    Set.InjOn sel (Set.Iio st.2) ∧
    (∀ t, t < st.2 → achievedRank ms (sel t)) ∧
    (∀ i, i < ms.length → ∀ t : ℤ,
      (st.1 i = some t ↔
        ∃ u : ℕ, u < st.2 ∧ (u : ℤ) = t ∧
          sel u = groupRank ms (ms.getD i none)))

theorem sampleInv_init (ms : List MVal) :
    SampleInv ms ((fun _ => none), 0) := by
  refine ⟨fun t => t, ?_, ?_, ?_⟩
  · intro a ha
    simp at ha
  · intro t ht
    omega
  · intro i hi t
    constructor
    · intro h
      exact Option.noConfusion h
    · rintro ⟨u, hu, -, -⟩
      omega

theorem sampleStep_inv (ms : List MVal) (st : (ℕ → MVal) × ℕ) (p : ℕ)
    (hp : achievedRank ms p) (hinv : SampleInv ms st) :
    SampleInv ms (sampleStep ms st p) := by
  obtain ⟨sel, hinj, hach, hiff⟩ := hinv
  unfold sampleStep
  by_cases hcheck : st.1 (firstRow ms p) = none
  · rw [if_pos hcheck]
    obtain ⟨hi0len, hi0rank⟩ := firstRow_spec ms p hp
    have hpfree : ∀ u, u < st.2 → sel u ≠ p := by
      intro u hu hequ
      have hrhs : ∃ w : ℕ, w < st.2 ∧ (w : ℤ) = (u : ℤ) ∧
          sel w = groupRank ms (ms.getD (firstRow ms p) none) :=
        ⟨u, hu, rfl, hequ.trans hi0rank.symm⟩
      have := (hiff (firstRow ms p) hi0len (u : ℤ)).2 hrhs
      rw [hcheck] at this
      exact Option.noConfusion this
    refine ⟨fun u => if u = st.2 then p else sel u, ?_, ?_, ?_⟩
    · intro a ha b hb hab
      simp only [Set.mem_Iio] at ha hb
      dsimp only at hab
      by_cases ha2 : a = st.2
      · by_cases hb2 : b = st.2
        · rw [ha2, hb2]
        · rw [if_pos ha2, if_neg hb2] at hab
          exact absurd hab.symm (hpfree b (by omega))
      · by_cases hb2 : b = st.2
        · rw [if_neg ha2, if_pos hb2] at hab
          exact absurd hab (hpfree a (by omega))
        · rw [if_neg ha2, if_neg hb2] at hab
          exact hinj (by simp; omega) (by simp; omega) hab
    · intro t ht
      dsimp only at ht ⊢
      by_cases ht2 : t = st.2
      · rw [if_pos ht2]
        exact hp
      · rw [if_neg ht2]
        exact hach t (by omega)
    · intro i hi t
      dsimp only
      simp only [writeGroup]
      by_cases hgi : groupRank ms (ms.getD i none) = p
      · rw [if_pos ⟨hi, hgi⟩]
        constructor
        · intro h
          have ht : ((st.2 : ℕ) : ℤ) = t := Option.some_injective _ h
          exact ⟨st.2, by omega, ht, by rw [if_pos rfl, hgi]⟩
        · rintro ⟨u, hu, hut, hsel⟩
          by_cases hu2 : u = st.2
          · rw [← hut, hu2]
          · rw [if_neg hu2] at hsel
            rw [hgi] at hsel
            exact absurd hsel (hpfree u (by omega))
      · rw [if_neg (by intro hand; exact hgi hand.2)]
        rw [hiff i hi t]
        constructor
        · rintro ⟨u, hu, hut, hsel⟩
          refine ⟨u, by omega, hut, ?_⟩
          rw [if_neg (by omega)]
          exact hsel
        · rintro ⟨u, hu, hut, hsel⟩
          by_cases hu2 : u = st.2
          · rw [if_pos hu2] at hsel
            exact absurd hsel.symm hgi
          · rw [if_neg hu2] at hsel
            exact ⟨u, by omega, hut, hsel⟩
  · rw [if_neg hcheck]
    exact ⟨sel, hinj, hach, hiff⟩

theorem sampleRun_inv (ms : List MVal) (maxBins : ℕ) (picks : List ℕ)
    (hpicks : ∀ p ∈ picks, achievedRank ms p) (st : (ℕ → MVal) × ℕ)
    (hinv : SampleInv ms st) :
    SampleInv ms (sampleRun ms maxBins picks st) := by
  induction picks generalizing st with
  | nil => exact hinv
  | cons p ps ih =>
    simp only [sampleRun]
    by_cases hk : st.2 < maxBins
    · rw [if_pos hk]
      exact ih (fun q hq => hpicks q (List.mem_cons_of_mem _ hq)) _
        (sampleStep_inv ms st p (hpicks p (List.mem_cons_self _ _)) hinv)
    · rw [if_neg hk]
      exact hinv

/-- C4: `sample_exemplars` samples iff `ngroups > max_bins + n_na_bins`
(`nNaBinsFor` being 0, 1 or 3 by path); when it samples and the pick
stream reaches `max_bins` selections, there is an injective choice
`sel` of `max_bins` occurring group indices such that a row holds the
sequential id `t` exactly when its group is `sel t`, and every row of an
unselected group is left at the NA sentinel. -/
theorem C4_sample_exemplars (ms : List MVal) (maxBins nNaBins ncols : ℕ)
    (picks : List ℕ)
    (hpicks : ∀ p ∈ picks, achievedRank ms p)
    (hterm : maxBins + nNaBins < ngroupsOf ms →
      (sampleRun ms maxBins picks ((fun _ => none), 0)).2 = maxBins) :
    ((sampleExemplars ms maxBins nNaBins picks).2 = true ↔
      maxBins + nNaBins < ngroupsOf ms) ∧
    (nNaBinsFor ncols = 0 ∨ nNaBinsFor ncols = 1 ∨ nNaBinsFor ncols = 3) ∧
    (maxBins + nNaBins < ngroupsOf ms →
      ∃ sel : ℕ → ℕ,
        Set.InjOn sel (Set.Iio maxBins) ∧
        (∀ t, t < maxBins → achievedRank ms (sel t)) ∧
        (∀ i, i < ms.length → ∀ t : ℤ,
          ((sampleExemplars ms maxBins nNaBins picks).1.1 i = some t ↔
            ∃ u : ℕ, u < maxBins ∧ (u : ℤ) = t ∧
              sel u = groupRank ms (ms.getD i none))) ∧
        (∀ i, i < ms.length →
          (∀ u, u < maxBins → sel u ≠ groupRank ms (ms.getD i none)) →
          (sampleExemplars ms maxBins nNaBins picks).1.1 i = none)) := by
  refine ⟨?_, ?_, ?_⟩
  · unfold sampleExemplars
    by_cases hcond : maxBins + nNaBins < ngroupsOf ms
    · rw [if_pos hcond]
      simpa using hcond
    · rw [if_neg hcond]
      simpa using hcond
  · rcases ncols with _ | _ | _ | m <;> simp [nNaBinsFor]
  · intro hcond
    have hout : (sampleExemplars ms maxBins nNaBins picks).1 =
        sampleRun ms maxBins picks ((fun _ => none), 0) := by
      rw [sampleExemplars, if_pos hcond]
    obtain ⟨sel, hinj, hach, hiff⟩ :=
      sampleRun_inv ms maxBins picks hpicks _ (sampleInv_init ms)
    have hfin : (sampleRun ms maxBins picks ((fun _ => none), 0)).2 =
        maxBins := hterm hcond
    rw [hfin] at hinj hach hiff
    refine ⟨sel, hinj, hach, ?_, ?_⟩
    · intro i hi t
      rw [hout]
      exact hiff i hi t
    · intro i hi hnot
      rw [hout]
      cases hcur : (sampleRun ms maxBins picks ((fun _ => none), 0)).1 i with
      | none => rfl
      | some t =>
        obtain ⟨u, hu, hut, hsel⟩ := (hiff i hi t).1 hcur
        exact absurd hsel (hnot u hu)

theorem C4_sample_exemplars_witness :
    (∀ p ∈ ([1] : List ℕ),
      achievedRank ([some 0, some 1, some 2] : List MVal) p) ∧
    (1 + 1 < ngroupsOf ([some 0, some 1, some 2] : List MVal) →
      (sampleRun ([some 0, some 1, some 2] : List MVal) 1 [1]
        ((fun _ => none), 0)).2 = 1) ∧
    ((sampleExemplars ([some 0, some 1, some 2] : List MVal) 1 1 [1]).2 =
        true ↔
      1 + 1 < ngroupsOf ([some 0, some 1, some 2] : List MVal)) := by
  have h1 : ∀ p ∈ ([1] : List ℕ),
      achievedRank ([some 0, some 1, some 2] : List MVal) p := by
    intro p hp
    have hp1 : p = 1 := by simpa using hp
    subst hp1
    exact ⟨1, by decide, by decide⟩
  have h2 : 1 + 1 < ngroupsOf ([some 0, some 1, some 2] : List MVal) →
      (sampleRun ([some 0, some 1, some 2] : List MVal) 1 [1]
        ((fun _ => none), 0)).2 = 1 := fun _ => by decide
  exact ⟨h1, h2,
    (C4_sample_exemplars [some 0, some 1, some 2] 1 1 2 [1] h1 h2).1⟩

/-- The exception kinds that can escape `aggregate`: a schema error from
the 2-D dispatch, a captured worker exception rethrown after the
parallel N-D loop, and a host interrupt surfaced through a `progress`
callback. -/
inductive AggError
  | schemaError
  | workerError
  | interruptError
deriving DecidableEq

/-- `Aggregator<T>::aggregate`, control-flow skeleton with the caller's
two output references threaded through.  `p0` is the outcome of the
initial `progress(0.0)` call; `grouping` is the outcome of the grouping
and sampling phase (`group_2d` may throw a schema error, `group_nd`
rethrows a captured worker exception or interrupt); `build` is the
construction of the two output tables by `aggregate_exemplars`; `pf` is
the outcome of the final `progress(1.0, 1)` call.  The reference
assignments `dt_exemplars_in = ...` and `dt_members_in = ...` happen
after `build` and before the final progress call, mirroring the
statement order in the source. -/
def aggregateModel {A B : Type} (refs : Option A × Option B)
    (p0 : Option AggError) (grouping : Except AggError (List MVal))
    (build : List MVal → A × B) (pf : Option AggError) :
    Except AggError Unit × (Option A × Option B) :=
  match p0 with
  | some e => (Except.error e, refs)
  | none =>
    match grouping with
    | Except.error e => (Except.error e, refs)
    | Except.ok ms =>
      match pf with
      | some e => (Except.error e, (some (build ms).1, some (build ms).2))
      | none => (Except.ok (), (some (build ms).1, some (build ms).2))

/-- C9 counterexample: a run whose only exception is an interrupt raised
by the final `progress(1.0, 1)` call exits `aggregate` by raising, yet
both caller references have already been assigned — they are not left
unassigned as the claim states. -/
theorem C9_refs_counterexample :
    (aggregateModel ((none, none) : Option Unit × Option Unit) none
        (Except.ok [some 0]) (fun _ => ((), ()))
        (some AggError.interruptError)).1 =
      Except.error AggError.interruptError ∧
    (aggregateModel ((none, none) : Option Unit × Option Unit) none
        (Except.ok [some 0]) (fun _ => ((), ()))
        (some AggError.interruptError)).2 ≠ (none, none) := by
  constructor
  · rfl
  · intro h
    exact Option.noConfusion (congrArg Prod.fst h)

/-- C9 (amended): whenever `aggregate` exits by raising an exception,
either the exception was raised before the reference assignments (the
initial progress interrupt, a 2-D schema error, or a rethrown worker
exception / interrupt from the N-D loop) and both caller references are
left exactly as they were, or the exception is an interrupt raised by
the final completion progress report, which happens after both
references have been assigned to the completed output tables — so a
partial table is never returned. -/
theorem C9_no_partial_results {A B : Type} (refs : Option A × Option B)
    (p0 : Option AggError) (g : Except AggError (List MVal))
    (build : List MVal → A × B) (pf : Option AggError)
    (herr : ∃ e, (aggregateModel refs p0 g build pf).1 = Except.error e) :
    (aggregateModel refs p0 g build pf).2 = refs ∨
    (pf ≠ none ∧ p0 = none ∧ ∃ ms, g = Except.ok ms ∧
      (aggregateModel refs p0 g build pf).2 =
        (some (build ms).1, some (build ms).2)) := by
  cases p0 with
  | some e => left; rfl
  | none =>
    cases g with
    | error e => left; rfl
    | ok ms =>
      cases pf with
      | some e =>
        right
        exact ⟨by simp, rfl, ms, rfl, rfl⟩
      | none =>
        obtain ⟨e, he⟩ := herr
        exact absurd he (by simp [aggregateModel])

theorem C9_no_partial_results_witness :
    (∃ e, (aggregateModel ((none, none) : Option Unit × Option Unit) none
      (Except.error AggError.schemaError) (fun _ => ((), ())) none).1 =
        Except.error e) ∧
    ((aggregateModel ((none, none) : Option Unit × Option Unit) none
        (Except.error AggError.schemaError) (fun _ => ((), ())) none).2 =
        (none, none) ∨
      ((none : Option AggError) ≠ none ∧ (none : Option AggError) = none ∧
        ∃ ms, (Except.error AggError.schemaError :
            Except AggError (List MVal)) = Except.ok ms ∧
          (aggregateModel ((none, none) : Option Unit × Option Unit) none
            (Except.error AggError.schemaError) (fun _ => ((), ())) none).2 =
            (some (), some ()))) :=
  ⟨⟨AggError.schemaError, rfl⟩,
    C9_no_partial_results (none, none) none
      (Except.error AggError.schemaError) (fun _ => ((), ())) none
      ⟨AggError.schemaError, rfl⟩⟩

/-- The zero-columns 0-D branch of `aggregate` (`ncols == 0` with
`nrows >= min_rows`): `group_0d` writes the sort ranks, then the
dispatch falls through to `sample_exemplars(nd_max_bins, 0)`, then
`aggregate_exemplars` runs with the resulting `was_sampled` flag.
Returns the final members column and the number of exemplars. -/
def aggregate0d (n : ℕ) (σ : Equiv.Perm (Fin n)) (ndMaxBins : ℕ)
    (picks : List ℕ) : List MVal × ℕ :=
  let res := sampleExemplars (group0d n σ) ndMaxBins 0 picks
  let ms1 := (List.range n).map (fun i => res.1.1 i)
  (finalMembers ms1 res.2, nExemplars ms1 res.2)

theorem map_range_getD (l : List MVal) :
    (List.range l.length).map (fun i => l.getD i none) = l := by
  apply List.ext_getElem
  · simp
  · intro i h1 h2
    simp only [List.getElem_map, List.getElem_range]
    rw [List.getD_eq_getElem l none h2]

/-- When `n ≤ nd_max_bins` the guard `ngroups > max_bins + 0` is false
(`group_0d` yields exactly `n` groups), so the sampler leaves the
members column untouched and the zero-columns branch reduces to the
unsampled finalization. -/
theorem aggregate0d_no_sampling (n : ℕ) (σ : Equiv.Perm (Fin n))
    (ndMaxBins : ℕ) (picks : List ℕ) (hnb : n ≤ ndMaxBins) :
    aggregate0d n σ ndMaxBins picks =
      (finalMembers (group0d n σ) false,
        nExemplars (group0d n σ) false) := by
  have hng : ngroupsOf (group0d n σ) = n :=
    ngroups_of_perm_canon (group0d_perm_canon n σ)
  have hguard : ¬ (ndMaxBins + 0 < ngroupsOf (group0d n σ)) := by
    rw [hng]
    omega
  have hms : (List.range n).map (fun i => (group0d n σ).getD i none) =
      group0d n σ := by
    have hrec := map_range_getD (group0d n σ)
    rw [group0d_length n σ] at hrec
    exact hrec
  simp only [aggregate0d]
  rw [sampleExemplars, if_neg hguard]
  simp only
  rw [hms]

/-- C5 counterexample: with two rows, zero columns to aggregate by
(`ncols == 0`, `nrows ≥ min_rows`) and `nd_max_bins = 1`, the 0-D path
runs the sampler after `group_0d` and it triggers (`2 groups > 1`): the
number of exemplars is 1, not `N = 2`, and the final members column
`[some 0, none]` keeps an NA row instead of being a permutation of
`[0, 2)`. -/
theorem C5_group0d_counterexample :
    (aggregate0d 2 (Equiv.refl (Fin 2)) 1 [0]).2 ≠ 2 ∧
    (aggregate0d 2 (Equiv.refl (Fin 2)) 1 [0]).1 = [some 0, none] ∧
    ¬ List.Perm (aggregate0d 2 (Equiv.refl (Fin 2)) 1 [0]).1
      (canonMembers 2) := by
  refine ⟨by decide, by decide, by decide⟩

/-- C5 (amended): on the 0-D path, `group_0d` makes `members[i]` the
rank of row `i` in the external sort by the first column (missing
last), `σ` mapping sorted positions to original rows.  On the
`min_rows` branch the sampler is skipped and the finalizer yields
`#exemplars = n` with the members column the permutation
`some (σ.symm i)` of `[0, n)`.  On the zero-columns branch
`sample_exemplars(nd_max_bins, 0)` runs in between; the same conclusion
holds there exactly when the sampler does not trigger, i.e. when
`n ≤ nd_max_bins` (for `n > nd_max_bins` it samples, leaving only
`nd_max_bins` exemplars and NA rows — see the counterexample). -/
theorem C5_group0d_path_amended (n : ℕ) (σ : Equiv.Perm (Fin n))
    (ndMaxBins : ℕ) (picks : List ℕ) :
    (nExemplars (group0d n σ) false = n ∧
      List.Perm (finalMembers (group0d n σ) false) (canonMembers n) ∧
      ∀ i : Fin n, (finalMembers (group0d n σ) false)[(i : ℕ)]? =
        some (some ((σ.symm i : ℕ) : ℤ))) ∧
    (n ≤ ndMaxBins →
      (aggregate0d n σ ndMaxBins picks).2 = n ∧
      List.Perm (aggregate0d n σ ndMaxBins picks).1 (canonMembers n) ∧
      ∀ i : Fin n, ((aggregate0d n σ ndMaxBins picks).1)[(i : ℕ)]? =
        some (some ((σ.symm i : ℕ) : ℤ))) := by
  have hbase : nExemplars (group0d n σ) false = n ∧
      List.Perm (finalMembers (group0d n σ) false) (canonMembers n) ∧
      ∀ i : Fin n, (finalMembers (group0d n σ) false)[(i : ℕ)]? =
        some (some ((σ.symm i : ℕ) : ℤ)) := by
    refine ⟨?_, ?_, ?_⟩
    · rw [nExemplars, ngroups_of_perm_canon (group0d_perm_canon n σ)]
      simp [sVal]
    · rw [finalMembers_group0d]
      exact group0d_perm_canon n σ
    · intro i
      rw [finalMembers_group0d]
      exact group0d_getElem? n σ i
  refine ⟨hbase, fun hnb => ?_⟩
  rw [aggregate0d_no_sampling n σ ndMaxBins picks hnb]
  exact ⟨hbase.1, hbase.2.1, hbase.2.2⟩

theorem C5_group0d_path_amended_witness :
    2 ≤ 2 ∧
    ((aggregate0d 2 (Equiv.refl (Fin 2)) 2 []).2 = 2 ∧
      List.Perm (aggregate0d 2 (Equiv.refl (Fin 2)) 2 []).1
        (canonMembers 2) ∧
      ∀ i : Fin 2, ((aggregate0d 2 (Equiv.refl (Fin 2)) 2 []).1)[(i : ℕ)]? =
        some (some ((((Equiv.refl (Fin 2)).symm i : Fin 2) : ℕ) : ℤ))) :=
  ⟨by decide,
    (C5_group0d_path_amended 2 (Equiv.refl (Fin 2)) 2 []).2 (by decide)⟩
